import Mathlib

/-!
Verification of the HAMT (hash array-mapped trie) core from hamt.c.

This file gives a shallow embedding of the data structure and of the
operations hamt_get, hamt_set, hamt_remove, hamt_pset, hamt_premove and of
the pool allocator routine table_allocator_alloc, and proves or refutes the
specification claims about them.

Modelling conventions:
- `struct hamt_node` is the inductive `hamt_node`: the pointer-tagged union
  becomes two constructors, `kv` (leaf, tagged value pointer) and `table`
  (internal node: 32-bit bitmap plus dense child array).
- Keys and values are opaque references in C (`void *`); they are modelled
  as `Nat` tokens. The user comparison function returns 0 iff equal and only
  that distinction is consumed; it is modelled as a `Nat → Nat → Bool`
  equality test. The user hash function `(key, generation) → uint32_t` is
  modelled as `Nat → Nat → Nat`, truncated mod 2^32 at every call site,
  mirroring the C conversion to `uint32_t`.
- In-place pointer mutation becomes rebuilding of the tree value along the
  visited path. The `path` argument of `search_recursive`/`rem_recursive`
  only controls which nodes are freshly allocated (path copying for the
  persistent variants); in a value semantics both modes construct the same
  tree value, so a single function models both the destructive and the
  persistent variant, exactly as the C shares the recursion between them.
- Recursion is fuelled: `none` means the model got stuck, which happens
  only where the C would not terminate (the `insert_table` collision
  cascade with totally colliding hashes) or would read out of bounds.
  All positive claims are therefore stated over executions that return
  `some`, and all concrete runs below evaluate to `some` results.
-/

namespace Hamt

/-- 2^32, the size of the uint32_t value space. -/
def W : Nat := 4294967296

/-- __builtin_popcount on a 32-bit word (hamt.c get_popcount). -/
def get_popcount (n : Nat) : Nat :=
  (List.range 32).countP (fun i => n.testBit i)

/-- hamt.c get_pos: popcount of the bitmap bits strictly below sparse_index. -/
def get_pos (sparse_index bitmap : Nat) : Nat :=
  get_popcount (bitmap &&& ((1 <<< sparse_index) - 1))

/-- hamt.c has_index: test whether bit `i` is set in the bitmap. -/
def has_index (index i : Nat) : Bool :=
  (index &&& (1 <<< i)) != 0

/-- hamt.c struct hash_state (the hash function pointer is passed
separately, as the functions receive it from the hamt handle). -/
structure hash_state where
  key : Nat
  hash : Nat
  depth : Nat
  shift : Nat
deriving DecidableEq, Repr

/-- hamt.c hash_next: advance one level; consume 5 bits; when the shift
passes 25 the hash is recomputed, passing the new depth as the generation
argument of the user hash function, and the shift resets to 0. -/
def hash_next (hf : Nat → Nat → Nat) (h : hash_state) : hash_state :=
  let depth := h.depth + 1
  let shift := h.shift + 5
  if 25 < shift then
    { h with depth := depth, shift := 0, hash := hf h.key depth % W }
  else
    { h with depth := depth, shift := shift }

/-- hamt.c hash_get_index: the current 5-bit slice. -/
def hash_get_index (h : hash_state) : Nat :=
  (h.hash >>> h.shift) &&& 31

/-- Iterated hash_next (one application per trie level descended). -/
def hash_iter (hf : Nat → Nat → Nat) : Nat → hash_state → hash_state
  | 0, h => h
  | n + 1, h => hash_next hf (hash_iter hf n h)

/-- hamt.c struct hamt_node: a leaf holds a key and a (tagged) value
reference; an internal node holds the 32-bit bitmap `index` and the dense
child array `ptr` of length popcount(index). -/
inductive hamt_node where
  | kv (key : Nat) (value : Nat)
  | table (index : Nat) (ptr : List hamt_node)

/-- The user hooks stored in struct hamt: hash function and comparison
(modelled as the equality test `cmp(a,b) == 0`). -/
structure hamt_fns where
  key_hash : Nat → Nat → Nat
  key_cmp : Nat → Nat → Bool

/-- struct hamt: root node and element counter. -/
structure hamt where
  root : hamt_node
  size : Nat

/-- hamt.c hamt_create: root is an internal node zeroed out
(bitmap 0, no child array). -/
def hamt_create : hamt :=
  { root := .table 0 [], size := 0 }

/-- hamt.c hamt_size. -/
def hamt_size (trie : hamt) : Nat := trie.size

/-- hamt.c search_status. -/
inductive search_status where
  | SEARCH_SUCCESS
  | SEARCH_FAIL_NOTFOUND
  | SEARCH_FAIL_KEYMISMATCH
deriving DecidableEq, Repr

/-- hamt.c struct search_result; `value` carries the key/value payload of
the leaf the search terminated at (for SUCCESS and KEYMISMATCH). -/
structure search_result where
  status : search_status
  value : Option (Nat × Nat)
  hash : hash_state
deriving Repr

/-- hamt.c search_recursive. The `path` parameter (path copying) has no
effect on the constructed value and is omitted. -/
def search_recursive (c : hamt_fns) : Nat → hamt_node → hash_state → Nat → Option search_result
  | 0, _, _, _ => none
  | fuel + 1, anchor, hash, key =>
    match anchor with
    | .kv _ _ => none
    | .table index ptr =>
      let expected_index := hash_get_index hash
      if has_index index expected_index then
        let pos := get_pos expected_index index
        match ptr[pos]? with
        | none => none
        | some (.kv k v) =>
          if c.key_cmp key k then
            some { status := .SEARCH_SUCCESS, value := some (k, v), hash := hash }
          else
            some { status := .SEARCH_FAIL_KEYMISMATCH, value := some (k, v), hash := hash }
        | some next =>
          search_recursive c fuel next (hash_next c.key_hash hash) key
      else
        some { status := .SEARCH_FAIL_NOTFOUND, value := none, hash := hash }

/-- hamt.c hamt_get: returns `some v` on SEARCH_SUCCESS (the untagged value
reference) and `none` (NULL) otherwise. The outer Option is model fuel. -/
def hamt_get (c : hamt_fns) (fuel : Nat) (trie : hamt) (key : Nat) : Option (Option Nat) :=
  let hash : hash_state := { key := key, hash := c.key_hash key 0 % W, depth := 0, shift := 0 }
  match search_recursive c fuel trie.root hash key with
  | none => none
  | some sr =>
    match sr.status, sr.value with
    | .SEARCH_SUCCESS, some (_, v) => some (some v)
    | _, _ => some none

/-- hamt.c insert_kv / table_extend: extend the anchor table by one row at
`pos`, copying the rows around the insertion point, and set the bit. -/
def insert_kv (index : Nat) (ptr : List hamt_node) (hash : hash_state) (key value : Nat) : hamt_node :=
  let ix := hash_get_index hash
  let new_index := index ||| (1 <<< ix)
  let pos := get_pos ix new_index
  .table new_index (ptr.take pos ++ .kv key value :: ptr.drop pos)

/-- The while loop of hamt.c insert_table: descend, building single-entry
tables, while the two hash slice sequences coincide; when they diverge,
build the two-entry table holding the existing and the new leaf (the C
writes the existing leaf at x_pos first, then the new leaf at pos). -/
def insert_table_rec (hf : Nat → Nat → Nat) : Nat → hash_state → hash_state → Nat → Nat → Nat → Nat → Option hamt_node
  | 0, _, _, _, _, _, _ => none
  | fuel + 1, next_hash, x_next_hash, key, value, x_key, x_value =>
    let next_index := hash_get_index next_hash
    let x_next_index := hash_get_index x_next_hash
    if next_index = x_next_index then
      match insert_table_rec hf fuel (hash_next hf next_hash) (hash_next hf x_next_hash) key value x_key x_value with
      | none => none
      | some sub => some (.table (1 <<< next_index) [sub])
    else
      let index := (1 <<< next_index) ||| (1 <<< x_next_index)
      let x_pos := get_pos x_next_index index
      let pos := get_pos next_index index
      some (.table index
        (([hamt_node.kv 0 0, hamt_node.kv 0 0].set x_pos (.kv x_key x_value)).set pos (.kv key value)))

/-- hamt.c insert_table: split the colliding leaf (x_key, x_value). The C
reconstructs the existing key's hash state with generation
`hash->depth / 5` (line 525) and then advances both states once before
entering the loop. -/
def insert_table (c : hamt_fns) (fuel : Nat) (x_key x_value : Nat) (hash : hash_state) (key value : Nat) : Option hamt_node :=
  let x_hash : hash_state :=
    { key := x_key, hash := c.key_hash x_key (hash.depth / 5) % W,
      depth := hash.depth, shift := hash.shift }
  insert_table_rec c.key_hash fuel (hash_next c.key_hash hash) (hash_next c.key_hash x_hash) key value x_key x_value

/-- hamt.c set(): search for the key and act on the outcome in place.
Returns the new subtree, the untagged value of the node the C returns a
pointer to, and whether the size counter is incremented. -/
def set_rec (c : hamt_fns) : Nat → hamt_node → hash_state → Nat → Nat → Option (hamt_node × Nat × Bool)
  | 0, _, _, _, _ => none
  | fuel + 1, anchor, hash, key, value =>
    match anchor with
    | .kv _ _ => none
    | .table index ptr =>
      let expected_index := hash_get_index hash
      if has_index index expected_index then
        let pos := get_pos expected_index index
        match ptr[pos]? with
        | some (.kv k v) =>
          if c.key_cmp key k then
            -- SEARCH_SUCCESS: overwrite the value, keep the stored key
            some (.table index (ptr.set pos (.kv k value)), value, false)
          else
            -- SEARCH_FAIL_KEYMISMATCH: split the colliding leaf
            match insert_table c fuel k v hash key value with
            | none => none
            | some sub => some (.table index (ptr.set pos sub), value, true)
        | some next =>
          match set_rec c fuel next (hash_next c.key_hash hash) key value with
          | none => none
          | some (next2, ret, inc) => some (.table index (ptr.set pos next2), ret, inc)
        | none => none
      else
        -- SEARCH_FAIL_NOTFOUND: extend the table by the new row
        some (insert_kv index ptr hash key value, value, true)

/-- hamt.c hamt_set: destructive insert; returns the new map value and the
untagged value reference of the inserted node. -/
def hamt_set (c : hamt_fns) (fuel : Nat) (trie : hamt) (key value : Nat) : Option (hamt × Nat) :=
  let hash : hash_state := { key := key, hash := c.key_hash key 0 % W, depth := 0, shift := 0 }
  match set_rec c fuel trie.root hash key value with
  | none => none
  | some (root2, ret, inc) =>
    some ({ root := root2, size := trie.size + if inc then 1 else 0 }, ret)

/-- hamt.c hamt_pset: path-copying insert; the shallow handle copy gets the
new root, and the size is incremented on first-time insertion. -/
def hamt_pset (c : hamt_fns) (fuel : Nat) (trie : hamt) (key value : Nat) : Option hamt :=
  let hash : hash_state := { key := key, hash := c.key_hash key 0 % W, depth := 0, shift := 0 }
  match set_rec c fuel trie.root hash key value with
  | none => none
  | some (root2, _, inc) =>
    some { root := root2, size := trie.size + if inc then 1 else 0 }

/-- hamt.c remove_status. -/
inductive remove_status where
  | REMOVE_SUCCESS
  | REMOVE_GATHERED
  | REMOVE_NOTFOUND
deriving DecidableEq, Repr

/-- hamt.c table_shrink: remove the row at `pos` and clear bit `ix`
(for `n_rows ≤ 1` the table becomes empty with bitmap 0). The C clears the
bit with `index & ~(1 << ix)` on uint32_t. -/
def table_shrink (index : Nat) (ptr : List hamt_node) (n_rows ix pos : Nat) : hamt_node :=
  if 1 < n_rows then
    .table (index &&& ((W - 1) ^^^ (1 <<< ix))) (ptr.take pos ++ ptr.drop (pos + 1))
  else
    .table 0 []

/-- hamt.c rem_recursive. `is_root` models the pointer comparisons with the
root (`root == copy` at line 745 and `next != TABLE(root)`, which holds iff
the current node is the root and pos = 0, at line 776). The `path`
parameter (path copying) has no effect on the constructed value and is
omitted. -/
def rem_recursive (c : hamt_fns) : Nat → Bool → hamt_node → hash_state → Nat → Option (hamt_node × remove_status × Option Nat)
  | 0, _, _, _, _ => none
  | fuel + 1, is_root, anchor, hash, key =>
    match anchor with
    | .kv _ _ => none
    | .table index ptr =>
      let expected_index := hash_get_index hash
      if has_index index expected_index then
        let pos := get_pos expected_index index
        match ptr[pos]? with
        | some (.kv k v) =>
          if c.key_cmp key k then
            let n_rows := get_popcount index
            if 2 < n_rows ∨ (1 ≤ n_rows ∧ is_root = true) then
              some (table_shrink index ptr n_rows expected_index pos, .REMOVE_SUCCESS, some v)
            else if n_rows = 2 then
              let sibling : Option hamt_node := ptr[if pos = 0 then 1 else 0]?
              match sibling with
              | some (.kv ok ov) =>
                -- both rows are value rows: gather, dropping the current row
                some (.kv ok ov, .REMOVE_GATHERED, some v)
              | some _ =>
                -- sibling is a subtable: shrink the node to one row
                some (table_shrink index ptr n_rows expected_index pos, .REMOVE_SUCCESS, some v)
              | none => none
            else
              some (.table index ptr, .REMOVE_SUCCESS, some v)
          else
            -- same hash, different key
            some (.table index ptr, .REMOVE_NOTFOUND, none)
        | some next =>
          match rem_recursive c fuel false next (hash_next c.key_hash hash) key with
          | none => none
          | some (next2, status, rval) =>
            -- C line 776: if (next != TABLE(root) && status == REMOVE_GATHERED)
            if ¬(is_root = true ∧ pos = 0) ∧ status = .REMOVE_GATHERED then
              let n_rows := get_popcount index
              if n_rows = 1 then
                -- table_gather(h, copy, 0): pull the gathered leaf up
                let gathered : Option hamt_node := (ptr.set pos next2)[0]?
                match gathered with
                | some (.kv gk gv) => some (.kv gk gv, .REMOVE_GATHERED, rval)
                | _ => none
              else
                some (.table index (ptr.set pos next2), .REMOVE_SUCCESS, rval)
            else
              some (.table index (ptr.set pos next2), .REMOVE_SUCCESS, rval)
        | none => none
      else
        some (.table index ptr, .REMOVE_NOTFOUND, none)

/-- hamt.c hamt_remove: destructive removal. On REMOVE_SUCCESS or
REMOVE_GATHERED the size counter is decremented and the (untagged) value of
the remove result is returned; otherwise NULL is returned. -/
def hamt_remove (c : hamt_fns) (fuel : Nat) (trie : hamt) (key : Nat) : Option (hamt × Option Nat) :=
  let hash : hash_state := { key := key, hash := c.key_hash key 0 % W, depth := 0, shift := 0 }
  match rem_recursive c fuel true trie.root hash key with
  | none => none
  | some (root2, status, rval) =>
    if status = .REMOVE_SUCCESS ∨ status = .REMOVE_GATHERED then
      some ({ root := root2, size := trie.size - 1 }, rval)
    else
      some ({ root := root2, size := trie.size }, none)

/-- hamt.c hamt_premove: path-copying removal; the shallow handle copy gets
the new root, and the size is decremented on REMOVE_SUCCESS/REMOVE_GATHERED. -/
def hamt_premove (c : hamt_fns) (fuel : Nat) (trie : hamt) (key : Nat) : Option hamt :=
  let hash : hash_state := { key := key, hash := c.key_hash key 0 % W, depth := 0, shift := 0 }
  match rem_recursive c fuel true trie.root hash key with
  | none => none
  | some (root2, status, _) =>
    if status = .REMOVE_SUCCESS ∨ status = .REMOVE_GATHERED then
      some { root := root2, size := trie.size - 1 }
    else
      some { root := root2, size := trie.size }

/-!
Section: Table pool allocator (hamt.c table_allocator_alloc)

One pool serves tables of a fixed width `table_size`. Chunks are modelled
by their sizes (newest first); a slot is identified by the pair
(chunk id, offset into the chunk buffer), where the id of the chunk
created n-th is n (`chunk_count` at its creation).
-/

/-- hamt.c struct table_allocator. -/
structure table_allocator where
  chunks : List Nat
  size : Nat
  buf_ix : Nat
  chunk_count : Nat
  table_size : Nat
  fl : List (Nat × Nat)
deriving DecidableEq, Repr

/-- hamt.c table_allocator_alloc: pop the freelist if non-empty; otherwise
serve from the head chunk, first growing the chunk chain by a
double-size chunk when `buf_ix == chunk->size`. Returns the slot
&chunk->buf[buf_ix] and the updated pool. -/
def table_allocator_alloc (pool : table_allocator) : Option ((Nat × Nat) × table_allocator) :=
  match pool.fl with
  | f :: rest =>
    -- attempt to return from the freelist
    some (f, { pool with fl := rest })
  | [] =>
    -- freelist is empty, serve from chunk
    match pool.chunks with
    | [] => none
    | chunk_size :: rest =>
      if pool.buf_ix = chunk_size then
        -- chunk has no capacity left: prepend a new chunk of double size
        some ((pool.chunk_count + 1, 0),
          { pool with chunks := chunk_size * 2 :: chunk_size :: rest,
                      buf_ix := pool.table_size,
                      chunk_count := pool.chunk_count + 1,
                      size := pool.size + 1 })
      else
        some ((pool.chunk_count, pool.buf_ix),
          { pool with buf_ix := pool.buf_ix + pool.table_size,
                      size := pool.size + 1 })

/-!
Section: Structural invariant

For every internal node the popcount of its bitmap equals the length of its
dense child array and is at least 1; the bitmap is a 32-bit value. The root
of an empty map is an internal node with bitmap 0 and no child array.
-/

/-- Well-formedness of a (non-empty-root) subtree. -/
inductive wf : hamt_node → Prop where
  | kv : ∀ k v, wf (.kv k v)
  | table : ∀ index ptr, index < W → get_popcount index = ptr.length →
      0 < ptr.length → (∀ x ∈ ptr, wf x) → wf (.table index ptr)

/-- Well-formedness at the root: the root is always an internal node; the
empty map has bitmap 0 and no child array; otherwise the subtree invariant
holds. -/
def wfRoot : hamt_node → Prop
  | .kv _ _ => False
  | .table index ptr => (index = 0 ∧ ptr = []) ∨ wf (.table index ptr)

/-!
Section: Concrete instances used by the claims

The hash functions below are legal instances of the documented hash
contract (deterministic functions of key and generation). `key_cmp` is
plain equality of the key tokens.
-/

/-- Hash instance for the lost-key runs: every key hashes to 0 at
generation 0 (full collision of the first six slices); at generation 6 the
keys separate; generation 1 (which insert_table erroneously uses for the
existing key when splitting at depth 6) differs from generation 6 for
key 0. -/
def hashA (k g : Nat) : Nat :=
  if g = 0 then 0
  else if g = 1 ∧ k = 0 then 32
  else if g = 6 then (if k = 1 then 1 else 0)
  else 0

def ctxA : hamt_fns := { key_hash := hashA, key_cmp := fun a b => a == b }

/-- Same as hashA except that key 0 moves to slice 2 at level 7 of its
generation-6 hash, so that a later `set` of key 0 takes the NOTFOUND path
and inserts a duplicate leaf. -/
def hashB (k g : Nat) : Nat :=
  if g = 0 then 0
  else if g = 1 ∧ k = 0 then 32
  else if g = 6 then (if k = 0 then 64 else if k = 1 then 1 else 0)
  else 0

def ctxB : hamt_fns := { key_hash := hashB, key_cmp := fun a b => a == b }

/-- Keys 0 and 1 collide in slice 0 and separate in slice 1. -/
def hashC (k _g : Nat) : Nat := if k = 1 then 32 else 0

def ctxC : hamt_fns := { key_hash := hashC, key_cmp := fun a b => a == b }

/-- Keys 0, 1, 2 share slice 0 and separate in slice 1. -/
def hashD (k _g : Nat) : Nat := if k = 1 then 32 else if k = 2 then 64 else 0

def ctxD : hamt_fns := { key_hash := hashD, key_cmp := fun a b => a == b }

/-- The spine of six single-entry tables (levels 0-5, all slices 0) that a
full generation-0 hash collision produces. -/
def chain6 (t : hamt_node) : hamt_node :=
  .table 1 [.table 1 [.table 1 [.table 1 [.table 1 [.table 1 [t]]]]]]

/-- hashA run: state after set(0,10). -/
def mA1 : hamt := { root := .table 1 [.kv 0 10], size := 1 }

/-- hashA run: state after set(0,10), set(1,11). -/
def mA2 : hamt := { root := chain6 (.table 3 [.kv 0 10, .kv 1 11]), size := 2 }

/-- hashA run: state after set(0,10), set(1,11), set(2,12). The split of
the colliding leaves of keys 0 and 2 at depth 6 rebuilt key 0's hash with
generation 6/5 = 1, so the leaf (0,10) sits at slice 1 of level 7 although
key 0's generation-6 hash walks slice 0. -/
def mA3 : hamt := { root := chain6 (.table 3 [.table 3 [.kv 2 12, .kv 0 10], .kv 1 11]), size := 3 }

/-- hashB run: states after set(0,10); set(1,11); set(2,12); set(0,13);
remove(2); premove(0). -/
def mB1 : hamt := { root := .table 1 [.kv 0 10], size := 1 }

def mB2 : hamt := { root := chain6 (.table 3 [.kv 0 10, .kv 1 11]), size := 2 }

def mB3 : hamt := { root := chain6 (.table 3 [.table 3 [.kv 2 12, .kv 0 10], .kv 1 11]), size := 3 }

def mB4 : hamt := { root := chain6 (.table 3 [.table 7 [.kv 2 12, .kv 0 10, .kv 0 13], .kv 1 11]), size := 4 }

def mB5 : hamt := { root := chain6 (.table 3 [.table 6 [.kv 0 10, .kv 0 13], .kv 1 11]), size := 3 }

def mB6 : hamt := { root := chain6 (.table 3 [.kv 0 10, .kv 1 11]), size := 2 }

/-- hashC run: state after set(0,10), set(1,11): the root holds a single
subtable holding the two leaves. -/
def mC2 : hamt := { root := .table 1 [.table 3 [.kv 0 10, .kv 1 11]], size := 2 }

/-- hashD run: state after set(0,10), set(1,11) (same shape as mC2). -/
def mD2 : hamt := { root := .table 1 [.table 3 [.kv 0 10, .kv 1 11]], size := 2 }

/-!
Section: Counting and bitmap lemmas
-/

theorem countP_ext {α : Type} {l : List α} {p q : α → Bool} (h : ∀ x ∈ l, p x = q x) :
    l.countP p = l.countP q :=
  List.countP_congr (fun x hx => by rw [h x hx])

theorem countP_succ_of_mem {l : List Nat} {i : Nat} {p : Nat → Bool}
    (hnd : l.Nodup) (hi : i ∈ l) (hpi : p i = false) :
    l.countP (fun j => p j || decide (i = j)) = l.countP p + 1 := by
  induction l with
  | nil => cases hi
  | cons a t ih =>
    rw [List.countP_cons, List.countP_cons]
    by_cases hia : i = a
    · subst hia
      have hnt : i ∉ t := (List.nodup_cons.1 hnd).1
      have ht : t.countP (fun j => p j || decide (i = j)) = t.countP p := by
        apply countP_ext
        intro x hx
        have hax : decide (i = x) = false :=
          decide_eq_false (fun h => hnt (h ▸ hx))
        rw [hax, Bool.or_false]
      rw [ht, hpi]
      simp
    · have hit : i ∈ t := by
        rcases List.mem_cons.1 hi with h | h
        · exact absurd h hia
        · exact h
      have ih2 := ih (List.nodup_cons.1 hnd).2 hit
      have hd : decide (i = a) = false := decide_eq_false hia
      rw [ih2, hd, Bool.or_false]
      omega

theorem countP_pred_of_mem {l : List Nat} {i : Nat} {p : Nat → Bool}
    (hnd : l.Nodup) (hi : i ∈ l) (hpi : p i = true) :
    l.countP p = l.countP (fun j => p j && !decide (i = j)) + 1 := by
  have h1 : l.countP p = l.countP (fun j => (p j && !decide (i = j)) || decide (i = j)) := by
    apply countP_ext
    intro x _
    by_cases hx : i = x
    · subst hx; simp [hpi]
    · simp [hx]
  rw [h1]
  exact countP_succ_of_mem hnd hi (by simp)

theorem countP_lt_of_mem {l : List Nat} {i : Nat} {p q : Nat → Bool}
    (hi : i ∈ l) (himp : ∀ a, q a = true → p a = true)
    (hqi : q i = false) (hpi : p i = true) :
    l.countP q < l.countP p := by
  induction l with
  | nil => cases hi
  | cons a t ih =>
    rw [List.countP_cons, List.countP_cons]
    by_cases hia : i = a
    · subst hia
      have hle : t.countP q ≤ t.countP p :=
        List.countP_mono_left (fun x _ hx => himp x hx)
      rw [hqi, hpi]
      simp
      omega
    · have hit : i ∈ t := by
        rcases List.mem_cons.1 hi with h | h
        · exact absurd h hia
        · exact h
      have hlt := ih hit
      cases hqa : q a
      · cases hpa : p a <;> simp [hqa, hpa] <;> omega
      · have hpa := himp a hqa
        simp [hqa, hpa]
        omega

theorem W_eq : W = 2 ^ 32 := by norm_num [W]

theorem one_shiftLeft_eq (i : Nat) : 1 <<< i = 2 ^ i := by
  rw [Nat.shiftLeft_eq, one_mul]

theorem hash_get_index_lt (h : hash_state) : hash_get_index h < 32 :=
  Nat.lt_succ_of_le Nat.and_le_right

theorem has_index_eq (index i : Nat) : has_index index i = index.testBit i := by
  rw [has_index, one_shiftLeft_eq, Nat.and_two_pow]
  cases h : index.testBit i
  · simp
  · simp [Nat.pos_iff_ne_zero.1 (Nat.two_pow_pos i)]

theorem get_popcount_eq (n : Nat) :
    get_popcount n = (List.range 32).countP (fun j => n.testBit j) := rfl

theorem get_pos_eq (i n : Nat) :
    get_pos i n = (List.range 32).countP (fun j => n.testBit j && decide (j < i)) := by
  rw [get_pos, get_popcount]
  apply countP_ext
  intro j _
  rw [one_shiftLeft_eq]
  simp [Bool.and_comm]

theorem get_pos_le (i n : Nat) : get_pos i n ≤ get_popcount n := by
  rw [get_pos_eq, get_popcount_eq]
  exact List.countP_mono_left (fun x _ h => by
    simp only [Bool.and_eq_true] at h
    exact h.1)

theorem get_pos_lt (i n : Nat) (hi : i < 32) (h : n.testBit i = true) :
    get_pos i n < get_popcount n := by
  rw [get_pos_eq, get_popcount_eq]
  refine countP_lt_of_mem (List.mem_range.2 hi) (fun a ha => ?_) (by simp) h
  simp only [Bool.and_eq_true] at ha
  exact ha.1

theorem popcount_pos (i n : Nat) (hi : i < 32) (h : n.testBit i = true) :
    0 < get_popcount n := by
  rw [get_popcount_eq]
  exact List.countP_pos_iff.2 ⟨i, List.mem_range.2 hi, h⟩

theorem get_popcount_or (n i : Nat) (hi : i < 32) (h : n.testBit i = false) :
    get_popcount (n ||| (1 <<< i)) = get_popcount n + 1 := by
  rw [get_popcount_eq, get_popcount_eq]
  have hm : ∀ j ∈ List.range 32,
      (n ||| (1 <<< i)).testBit j = (n.testBit j || decide (i = j)) := by
    intro j _
    rw [one_shiftLeft_eq]
    simp [Nat.testBit_two_pow]
  rw [countP_ext hm]
  exact countP_succ_of_mem (List.nodup_range _) (List.mem_range.2 hi) h

theorem get_popcount_and_not (n i : Nat) (hi : i < 32) (h : n.testBit i = true) :
    get_popcount n = get_popcount (n &&& ((W - 1) ^^^ (1 <<< i))) + 1 := by
  rw [get_popcount_eq, get_popcount_eq]
  have hm : ∀ j ∈ List.range 32,
      (n &&& ((W - 1) ^^^ (1 <<< i))).testBit j = (n.testBit j && !decide (i = j)) := by
    intro j hj
    have hj32 : j < 32 := List.mem_range.1 hj
    rw [one_shiftLeft_eq, W_eq]
    simp only [Nat.testBit_and, Nat.testBit_xor, Nat.testBit_two_pow_sub_one,
      Nat.testBit_two_pow]
    simp [hj32]
  rw [countP_ext hm]
  exact countP_pred_of_mem (List.nodup_range _) (List.mem_range.2 hi) h

theorem get_pos_or (n i : Nat) :
    get_pos i (n ||| (1 <<< i)) = get_pos i n := by
  rw [get_pos_eq, get_pos_eq]
  apply countP_ext
  intro j _
  rcases Nat.lt_or_ge j i with hji | hji
  · have : ¬(i = j) := fun h => absurd (h ▸ hji) (Nat.lt_irrefl _)
    rw [one_shiftLeft_eq]
    simp [Nat.testBit_two_pow, this]
  · simp [Nat.not_lt.2 hji]

theorem popcount_two_pow (i : Nat) (hi : i < 32) : get_popcount (1 <<< i) = 1 := by
  rw [get_popcount_eq]
  have hm : ∀ j ∈ List.range 32,
      ((1 <<< i).testBit j) = ((fun _ => false) j || decide (i = j)) := by
    intro j _
    rw [one_shiftLeft_eq]
    simp [Nat.testBit_two_pow]
  rw [countP_ext hm, countP_succ_of_mem (List.nodup_range _) (List.mem_range.2 hi) rfl]
  simp

theorem popcount_two_pows (i j : Nat) (hi : i < 32) (hj : j < 32) (hne : i ≠ j) :
    get_popcount ((1 <<< i) ||| (1 <<< j)) = 2 := by
  have hb : (1 <<< i).testBit j = false := by
    rw [one_shiftLeft_eq]
    simp [Nat.testBit_two_pow, hne]
  rw [get_popcount_or _ j hj hb, popcount_two_pow i hi]

theorem shiftLeft_lt_W (i : Nat) (hi : i < 32) : (1 <<< i) < W := by
  rw [one_shiftLeft_eq, W_eq]
  exact Nat.pow_lt_pow_right (by norm_num) hi

theorem or_lt_W {n : Nat} (i : Nat) (hn : n < W) (hi : i < 32) : n ||| (1 <<< i) < W := by
  rw [W_eq] at hn ⊢
  exact Nat.or_lt_two_pow hn (W_eq ▸ shiftLeft_lt_W i hi)

theorem and_lt_W {n m : Nat} (hn : n < W) : n &&& m < W :=
  Nat.lt_of_le_of_lt Nat.and_le_left hn

/-!
Section: List surgery lemmas (memcpy around the insertion/deletion point)
-/

theorem length_insert_at {l : List hamt_node} {pos : Nat} (h : pos ≤ l.length)
    (x : hamt_node) :
    (l.take pos ++ x :: l.drop pos).length = l.length + 1 := by
  simp only [List.length_append, List.length_take, List.length_cons, List.length_drop]
  omega

theorem length_remove_at {l : List hamt_node} {pos : Nat} (h : pos < l.length) :
    (l.take pos ++ l.drop (pos + 1)).length = l.length - 1 := by
  simp only [List.length_append, List.length_take, List.length_drop]
  omega

theorem mem_insert_at {l : List hamt_node} {pos : Nat} {x y : hamt_node}
    (hy : y ∈ l.take pos ++ x :: l.drop pos) :
    y ∈ l ∨ y = x := by
  rcases List.mem_append.1 hy with h | h
  · exact Or.inl (List.take_subset _ _ h)
  · rcases List.mem_cons.1 h with rfl | h
    · exact Or.inr rfl
    · exact Or.inl (List.drop_subset _ _ h)

theorem mem_remove_at {l : List hamt_node} {pos : Nat} {y : hamt_node}
    (hy : y ∈ l.take pos ++ l.drop (pos + 1)) :
    y ∈ l := by
  rcases List.mem_append.1 hy with h | h
  · exact List.take_subset _ _ h
  · exact List.drop_subset _ _ h

/-!
Section: Behavioural lemmas about the operations
-/

/-- set() hands back the node pointer it wrote the (tagged) new value to,
so the untagged return of hamt_set is always the just-set value. -/
theorem set_rec_ret (c : hamt_fns) :
    ∀ fuel anchor hash key value out,
      set_rec c fuel anchor hash key value = some out → out.2.1 = value := by
  intro fuel
  induction fuel with
  | zero =>
    intro anchor hash key value out h
    simp [set_rec] at h
  | succ fuel ih =>
    intro anchor hash key value out h
    cases anchor with
    | kv k v => simp [set_rec] at h
    | table index ptr =>
      simp only [set_rec] at h
      split at h
      · split at h
        · split at h
          · rw [Option.some.injEq] at h
            subst h
            rfl
          · split at h
            · exact absurd h (by simp)
            · rw [Option.some.injEq] at h
              subst h
              rfl
        · split at h
          · exact absurd h (by simp)
          · rename_i next2 ret inc hrec
            rw [Option.some.injEq] at h
            subst h
            exact ih _ _ _ _ (next2, ret, inc) hrec
        · exact absurd h (by simp)
      · rw [Option.some.injEq] at h
        subst h
        rfl

/-- Replacing a child of a well-formed table by a well-formed node keeps
the table well-formed. -/
theorem wf_set_child {index : Nat} {ptr : List hamt_node} {pos : Nat}
    {x : hamt_node} (hw : wf (.table index ptr)) (hx : wf x) :
    wf (.table index (ptr.set pos x)) := by
  cases hw with
  | table _ _ hW hlen hpos hch =>
    refine wf.table _ _ hW (by simpa using hlen) (by simpa using hpos) ?_
    intro y hy
    rcases List.mem_or_eq_of_mem_set hy with h | rfl
    · exact hch y h
    · exact hx

/-- insert_kv/table_extend yields a well-formed table when the bit was not
yet set (this also covers insertion into the empty root). -/
theorem insert_kv_wf {index : Nat} {ptr : List hamt_node} {hash : hash_state}
    {key value : Nat} (hW : index < W)
    (hlen : get_popcount index = ptr.length)
    (hch : ∀ x ∈ ptr, wf x)
    (hni : index.testBit (hash_get_index hash) = false) :
    wf (insert_kv index ptr hash key value) := by
  have hix : hash_get_index hash < 32 := hash_get_index_lt _
  have hposle : get_pos (hash_get_index hash) (index ||| 1 <<< hash_get_index hash) ≤ ptr.length := by
    rw [get_pos_or]
    exact hlen ▸ get_pos_le _ _
  simp only [insert_kv]
  refine wf.table _ _ (or_lt_W _ hW hix) ?_ ?_ ?_
  · rw [get_popcount_or index _ hix hni, length_insert_at hposle, hlen]
  · rw [length_insert_at hposle]
    omega
  · intro y hy
    rcases mem_insert_at hy with h | rfl
    · exact hch y h
    · exact wf.kv _ _

/-- The cascade built by insert_table consists of well-formed single-entry
tables ending in a well-formed two-leaf table. -/
theorem insert_table_rec_wf (hf : Nat → Nat → Nat) :
    ∀ fuel h1 h2 key value xk xv n,
      insert_table_rec hf fuel h1 h2 key value xk xv = some n → wf n := by
  intro fuel
  induction fuel with
  | zero =>
    intro h1 h2 key value xk xv n h
    simp [insert_table_rec] at h
  | succ fuel ih =>
    intro h1 h2 key value xk xv n h
    simp only [insert_table_rec] at h
    split at h
    · split at h
      · exact absurd h (by simp)
      · rename_i sub hsub
        rw [Option.some.injEq] at h
        subst h
        refine wf.table _ _ (shiftLeft_lt_W _ (hash_get_index_lt _)) ?_ ?_ ?_
        · rw [popcount_two_pow _ (hash_get_index_lt _)]
          rfl
        · simp
        · intro y hy
          rw [List.mem_singleton] at hy
          subst hy
          exact ih _ _ _ _ _ _ _ hsub
    · rename_i hne
      rw [Option.some.injEq] at h
      subst h
      refine wf.table _ _
        (or_lt_W _ (shiftLeft_lt_W _ (hash_get_index_lt _)) (hash_get_index_lt _)) ?_ ?_ ?_
      · rw [popcount_two_pows _ _ (hash_get_index_lt _) (hash_get_index_lt _) hne]
        simp
      · simp
      · intro y hy
        rcases List.mem_or_eq_of_mem_set hy with hy2 | rfl
        · rcases List.mem_or_eq_of_mem_set hy2 with hy3 | rfl
          · rcases List.mem_cons.1 hy3 with rfl | hy4
            · exact wf.kv _ _
            · rw [List.mem_singleton] at hy4
              subst hy4
              exact wf.kv _ _
          · exact wf.kv _ _
        · exact wf.kv _ _

/-- table_shrink yields a well-formed table unless the popcount was at most
one, in which case it returns the empty table. -/
theorem table_shrink_wf {index : Nat} {ptr : List hamt_node} {ix pos : Nat}
    (hw : wf (.table index ptr)) (hix : ix < 32)
    (hbit : index.testBit ix = true) (hpos : pos < ptr.length) :
    wf (table_shrink index ptr (get_popcount index) ix pos) ∨
      (get_popcount index ≤ 1 ∧
        table_shrink index ptr (get_popcount index) ix pos = .table 0 []) := by
  cases hw with
  | table _ _ hW hlen hpl hch =>
    rw [table_shrink]
    by_cases h1 : 1 < get_popcount index
    · rw [if_pos h1]
      left
      have hpc := get_popcount_and_not index ix hix hbit
      refine wf.table _ _ (and_lt_W hW) ?_ ?_ ?_
      · rw [length_remove_at hpos]
        omega
      · rw [length_remove_at hpos]
        omega
      · intro y hy
        exact hch y (mem_remove_at hy)
    · rw [if_neg h1]
      exact Or.inr ⟨by omega, rfl⟩

/-- set() started at an internal node returns an internal node. -/
theorem set_rec_table (c : hamt_fns) (fuel : Nat) (index : Nat)
    (ptr : List hamt_node) (hash : hash_state) (key value : Nat)
    (out : hamt_node × Nat × Bool)
    (h : set_rec c fuel (.table index ptr) hash key value = some out) :
    ∃ i p, out.1 = hamt_node.table i p := by
  cases fuel with
  | zero => simp [set_rec] at h
  | succ fuel =>
    simp only [set_rec] at h
    split at h
    · split at h
      · split at h
        · rw [Option.some.injEq] at h
          subst h
          exact ⟨_, _, rfl⟩
        · split at h
          · exact absurd h (by simp)
          · rw [Option.some.injEq] at h
            subst h
            exact ⟨_, _, rfl⟩
      · split at h
        · exact absurd h (by simp)
        · rw [Option.some.injEq] at h
          subst h
          exact ⟨_, _, rfl⟩
      · exact absurd h (by simp)
    · rw [Option.some.injEq] at h
      subst h
      exact ⟨_, _, rfl⟩

/-- Destructive/persistent insert preserves the subtree invariant. -/
theorem set_rec_wf (c : hamt_fns) :
    ∀ fuel anchor hash key value out,
      wf anchor → set_rec c fuel anchor hash key value = some out → wf out.1 := by
  intro fuel
  induction fuel with
  | zero =>
    intro anchor hash key value out hw h
    simp [set_rec] at h
  | succ fuel ih =>
    intro anchor hash key value out hw h
    cases anchor with
    | kv k v => simp [set_rec] at h
    | table index ptr =>
      simp only [set_rec] at h
      split at h
      · rename_i hb
        split at h
        · rename_i k v heq
          split at h
          · rw [Option.some.injEq] at h
            subst h
            exact wf_set_child hw (wf.kv _ _)
          · split at h
            · exact absurd h (by simp)
            · rename_i sub hsub
              rw [Option.some.injEq] at h
              subst h
              have hsub2 : wf sub := by
                rw [insert_table] at hsub
                exact insert_table_rec_wf _ _ _ _ _ _ _ _ _ hsub
              exact wf_set_child hw hsub2
        · rename_i next hnk heq
          split at h
          · exact absurd h (by simp)
          · rename_i next2 ret inc hrec
            rw [Option.some.injEq] at h
            subst h
            have hnext : wf next := by
              cases hw with
              | table _ _ _ _ _ hch => exact hch _ (List.getElem?_mem heq)
            exact wf_set_child hw (ih _ _ _ _ (next2, ret, inc) hnext hrec)
        · exact absurd h (by simp)
      · rename_i hb
        rw [Option.some.injEq] at h
        subst h
        cases hw with
        | table _ _ hW hlen hpl hch =>
          have hni : index.testBit (hash_get_index hash) = false := by
            rw [← has_index_eq]
            exact Bool.eq_false_iff.mpr hb
          exact insert_kv_wf hW hlen hch hni

/-- Destructive/persistent removal preserves the subtree invariant (or, at
the root, empties the map). -/
theorem rem_rec_wf (c : hamt_fns) :
    ∀ fuel is_root anchor hash key out,
      wf anchor → rem_recursive c fuel is_root anchor hash key = some out →
      wf out.1 ∨ (is_root = true ∧ out.1 = .table 0 []) := by
  intro fuel
  induction fuel with
  | zero =>
    intro is_root anchor hash key out hw h
    simp [rem_recursive] at h
  | succ fuel ih =>
    intro is_root anchor hash key out hw h
    cases anchor with
    | kv k v => simp [rem_recursive] at h
    | table index ptr =>
      simp only [rem_recursive] at h
      split at h
      · rename_i hb
        have hbit : index.testBit (hash_get_index hash) = true := by
          rw [← has_index_eq]
          exact hb
        split at h
        · rename_i k v heq
          obtain ⟨hposlt, -⟩ := List.getElem?_eq_some_iff.1 heq
          split at h
          · split at h
            · rename_i hcond
              rw [Option.some.injEq] at h
              subst h
              rcases table_shrink_wf hw (hash_get_index_lt _) hbit hposlt with h1 | ⟨h2a, h2b⟩
              · exact Or.inl h1
              · right
                refine ⟨?_, h2b⟩
                rcases hcond with h3 | h3
                · omega
                · exact h3.2
            · split at h
              · rename_i hn2
                split at h
                · rw [Option.some.injEq] at h
                  subst h
                  exact Or.inl (wf.kv _ _)
                · rw [Option.some.injEq] at h
                  subst h
                  rcases table_shrink_wf hw (hash_get_index_lt _) hbit hposlt with h1 | ⟨h2a, h2b⟩
                  · exact Or.inl h1
                  · omega
                · exact absurd h (by simp)
              · rw [Option.some.injEq] at h
                subst h
                exact Or.inl hw
          · rw [Option.some.injEq] at h
            subst h
            exact Or.inl hw
        · rename_i next hnk heq
          split at h
          · exact absurd h (by simp)
          · rename_i next2 status rval hrec
            have hnext : wf next := by
              cases hw with
              | table _ _ _ _ _ hch => exact hch _ (List.getElem?_mem heq)
            have hnext2 : wf next2 := by
              rcases ih false next (hash_next c.key_hash hash) key (next2, status, rval) hnext hrec with h1 | h2
              · exact h1
              · exact absurd h2.1 (by simp)
            split at h
            · split at h
              · split at h
                · rename_i gk gv hg
                  rw [Option.some.injEq] at h
                  subst h
                  exact Or.inl (wf.kv _ _)
                · exact absurd h (by simp)
              · rw [Option.some.injEq] at h
                subst h
                exact Or.inl (wf_set_child hw hnext2)
            · rw [Option.some.injEq] at h
              subst h
              exact Or.inl (wf_set_child hw hnext2)
        · exact absurd h (by simp)
      · rw [Option.some.injEq] at h
        subst h
        exact Or.inl hw

/-- At the root, removal never gathers: the result is always an internal
node (the C guards the root with the pointer comparison next != TABLE(root)
and shrinks instead of gathering whenever root == copy). -/
theorem rem_rec_root_table (c : hamt_fns) (fuel : Nat) (anchor : hamt_node)
    (hash : hash_state) (key : Nat) (out : hamt_node × remove_status × Option Nat)
    (h : rem_recursive c fuel true anchor hash key = some out) :
    ∃ i p, out.1 = hamt_node.table i p := by
  cases fuel with
  | zero => simp [rem_recursive] at h
  | succ fuel =>
    cases anchor with
    | kv k v => simp [rem_recursive] at h
    | table index ptr =>
      simp only [rem_recursive] at h
      split at h
      · rename_i hb
        have hbit : index.testBit (hash_get_index hash) = true := by
          rw [← has_index_eq]
          exact hb
        have hn1 := popcount_pos (hash_get_index hash) index (hash_get_index_lt _) hbit
        split at h
        · rename_i k v heq
          split at h
          · split at h
            · rw [Option.some.injEq] at h
              subst h
              rw [table_shrink]
              split
              · exact ⟨_, _, rfl⟩
              · exact ⟨_, _, rfl⟩
            · rename_i hcond
              exact absurd (Or.inr ⟨hn1, trivial⟩) hcond
          · rw [Option.some.injEq] at h
            subst h
            exact ⟨_, _, rfl⟩
        · rename_i next hnk heq
          split at h
          · exact absurd h (by simp)
          · rename_i next2 status rval hrec
            split at h
            · rename_i hguard
              split at h
              · rename_i hpc1
                exfalso
                have hposlt := get_pos_lt (hash_get_index hash) index (hash_get_index_lt _) hbit
                rw [hpc1] at hposlt
                exact hguard.1 ⟨trivial, by omega⟩
              · rw [Option.some.injEq] at h
                subst h
                exact ⟨_, _, rfl⟩
            · rw [Option.some.injEq] at h
              subst h
              exact ⟨_, _, rfl⟩
        · exact absurd h (by simp)
      · rw [Option.some.injEq] at h
        subst h
        exact ⟨_, _, rfl⟩

/-- Root-level invariant preservation for insert. -/
theorem set_rec_wfRoot (c : hamt_fns) {fuel : Nat} {anchor : hamt_node}
    {hash : hash_state} {key value : Nat} {out : hamt_node × Nat × Bool}
    (hw : wfRoot anchor) (h : set_rec c fuel anchor hash key value = some out) :
    wfRoot out.1 := by
  cases anchor with
  | kv k v => exact absurd hw (by simp [wfRoot])
  | table index ptr =>
    rcases hw with ⟨hi0, hp0⟩ | hwf
    · subst hi0
      subst hp0
      cases fuel with
      | zero => simp [set_rec] at h
      | succ fuel =>
        have hfalse : has_index 0 (hash_get_index hash) = false := by
          rw [has_index_eq]
          exact Nat.zero_testBit _
        simp only [set_rec, hfalse] at h
        rw [if_neg (by simp)] at h
        rw [Option.some.injEq] at h
        subst h
        have hwf2 : wf (insert_kv 0 [] hash key value) :=
          insert_kv_wf (by norm_num [W]) (by decide) (by intro x hx; cases hx)
            (Nat.zero_testBit _)
        simp only [insert_kv] at hwf2 ⊢
        exact Or.inr hwf2
    · have hwf2 := set_rec_wf c _ _ _ _ _ _ hwf h
      obtain ⟨i2, p2, he⟩ := set_rec_table c _ _ _ _ _ _ _ h
      rw [he] at hwf2 ⊢
      exact Or.inr hwf2

/-- Root-level invariant preservation for removal. -/
theorem rem_rec_wfRoot (c : hamt_fns) {fuel : Nat} {anchor : hamt_node}
    {hash : hash_state} {key : Nat} {out : hamt_node × remove_status × Option Nat}
    (hw : wfRoot anchor) (h : rem_recursive c fuel true anchor hash key = some out) :
    wfRoot out.1 := by
  cases anchor with
  | kv k v => exact absurd hw (by simp [wfRoot])
  | table index ptr =>
    rcases hw with ⟨hi0, hp0⟩ | hwf
    · subst hi0
      subst hp0
      cases fuel with
      | zero => simp [rem_recursive] at h
      | succ fuel =>
        have hfalse : has_index 0 (hash_get_index hash) = false := by
          rw [has_index_eq]
          exact Nat.zero_testBit _
        simp only [rem_recursive, hfalse] at h
        rw [if_neg (by simp)] at h
        rw [Option.some.injEq] at h
        subst h
        exact Or.inl ⟨rfl, rfl⟩
    · rcases rem_rec_wf c _ _ _ _ _ _ hwf h with h1 | h2
      · obtain ⟨i2, p2, he⟩ := rem_rec_root_table c _ _ _ _ _ h
        rw [he] at h1 ⊢
        exact Or.inr h1
      · rw [h2.2]
        exact Or.inl ⟨rfl, rfl⟩

/-!
Section: The claims
-/

/-- Claim C8: pool allocation pops the freelist head when the freelist is
non-empty; otherwise, exactly when buf_ix + w would exceed the head chunk's
size (which, under the pool's stride invariants, is the code's test
buf_ix == chunk->size), a new chunk of double the previous size is
prepended and buf_ix resets; the returned slot is chunk.buf[buf_ix] and
buf_ix advances by w. -/
theorem claim_C8 (pool : table_allocator) :
    (∀ f rest, pool.fl = f :: rest →
      table_allocator_alloc pool = some (f, { pool with fl := rest }))
    ∧
    (∀ chunk_size rest, pool.fl = [] → pool.chunks = chunk_size :: rest →
      0 < pool.table_size → 0 < chunk_size →
      pool.table_size ∣ chunk_size → pool.table_size ∣ pool.buf_ix →
      pool.buf_ix ≤ chunk_size →
      ((chunk_size < pool.buf_ix + pool.table_size →
        table_allocator_alloc pool =
          some ((pool.chunk_count + 1, 0),
            { pool with chunks := chunk_size * 2 :: chunk_size :: rest,
                        buf_ix := pool.table_size,
                        chunk_count := pool.chunk_count + 1,
                        size := pool.size + 1 }))
      ∧ (pool.buf_ix + pool.table_size ≤ chunk_size →
        table_allocator_alloc pool =
          some ((pool.chunk_count, pool.buf_ix),
            { pool with buf_ix := pool.buf_ix + pool.table_size,
                        size := pool.size + 1 })))) := by
  constructor
  · intro f rest hfl
    simp [table_allocator_alloc, hfl]
  · intro chunk_size rest hfl hchunks hw hc hdvd1 hdvd2 hle
    constructor
    · intro hover
      have hbe : pool.buf_ix = chunk_size := by
        rcases hdvd1 with ⟨a, ha⟩
        rcases hdvd2 with ⟨b, hb⟩
        by_contra hne
        have hlt : pool.buf_ix < chunk_size := by omega
        rw [ha, hb] at hlt hover
        have h1 : b < a := Nat.lt_of_mul_lt_mul_left hlt
        have h2 : pool.table_size * (b + 1) ≤ pool.table_size * a :=
          Nat.mul_le_mul_left _ h1
        rw [Nat.mul_succ] at h2
        omega
      simp only [table_allocator_alloc, hfl, hchunks]
      rw [if_pos hbe]
    · intro hunder
      have hne : pool.buf_ix ≠ chunk_size := by omega
      simp only [table_allocator_alloc, hfl, hchunks]
      rw [if_neg hne]

/-- Witness for C8: a width-2 pool with a full head chunk of size 4 grows a
size-8 chunk and serves slot 0 of the new chunk; the same pool with a
non-empty freelist pops its head. -/
theorem claim_C8_witness :
    table_allocator_alloc
        { chunks := [4], size := 0, buf_ix := 4, chunk_count := 1,
          table_size := 2, fl := [] } =
      some ((2, 0),
        { chunks := [8, 4], size := 1, buf_ix := 2, chunk_count := 2,
          table_size := 2, fl := [] }) ∧
    table_allocator_alloc
        { chunks := [4], size := 0, buf_ix := 2, chunk_count := 1,
          table_size := 2, fl := [(1, 0)] } =
      some ((1, 0),
        { chunks := [4], size := 0, buf_ix := 2, chunk_count := 1,
          table_size := 2, fl := [] }) := by
  constructor
  · exact ((claim_C8 _).2 4 [] rfl rfl (by decide) (by decide) (by decide)
      (by decide) (by decide)).1 (by decide)
  · exact (claim_C8 _).1 (1, 0) [] rfl

/-- Claim C5 (amended): each level consumes 5 bits; when the shift passes
25 the hash is recomputed with the current depth as the generation argument
of the user hash function (i.e. 6·(g+1) at the (g+1)-st rehash, so 6 at the
first rehash — not g+1 as the spec claims) and the shift resets to 0. -/
theorem claim_C5 (hf : Nat → Nat → Nat) (k h0 : Nat) (n : Nat) :
    hash_iter hf n { key := k, hash := h0, depth := 0, shift := 0 } =
      { key := k, hash := if n < 6 then h0 else hf k (6 * (n / 6)) % W,
        depth := n, shift := 5 * (n % 6) } := by
  induction n with
  | zero => simp [hash_iter]
  | succ n ih =>
    simp only [hash_iter]
    rw [ih]
    simp only [hash_next]
    by_cases hmod : n % 6 = 5
    · rw [if_pos (by omega : 25 < 5 * (n % 6) + 5)]
      simp only [hash_state.mk.injEq]
      refine ⟨trivial, ?_, trivial, by omega⟩
      rw [if_neg (by omega : ¬(n + 1 < 6))]
      rw [show 6 * ((n + 1) / 6) = n + 1 by omega]
    · rw [if_neg (by omega : ¬(25 < 5 * (n % 6) + 5))]
      simp only [hash_state.mk.injEq]
      refine ⟨trivial, ?_, trivial, by omega⟩
      by_cases h6 : n < 6
      · rw [if_pos h6, if_pos (by omega : n + 1 < 6)]
      · rw [if_neg h6, if_neg (by omega : ¬(n + 1 < 6)),
          show 6 * ((n + 1) / 6) = 6 * (n / 6) by omega]

/-- Counterexample for C5 as stated: with the hash function
(key, generation) ↦ 100 + generation, the first rehash (after the sixth
5-bit slice is consumed) produces hash 106, i.e. the hash function was
called with generation 6 = depth, not with generation g+1 = 1 (which would
give 101). -/
theorem claim_C5_counterexample :
    (hash_iter (fun _ g => 100 + g) 6
        { key := 0, hash := 0, depth := 0, shift := 0 }).hash = 106 ∧
    (106 : Nat) ≠ 101 :=
  ⟨rfl, by decide⟩

/-- Claim C3 (amended): hamt_set returns the value just set (it returns the
untagged value of the node it wrote the new tagged value into), not the
previous value, and not null on fresh insertion. -/
theorem claim_C3 (c : hamt_fns) (fuel : Nat) (trie : hamt) (key value : Nat)
    (m : hamt) (r : Nat) (h : hamt_set c fuel trie key value = some (m, r)) :
    r = value := by
  simp only [hamt_set] at h
  split at h
  · exact absurd h (by simp)
  · rename_i root2 ret inc hrec
    rw [Option.some.injEq, Prod.mk.injEq] at h
    rw [← h.2]
    exact set_rec_ret c fuel _ _ _ _ (root2, ret, inc) hrec

/-- Counterexample for C3 as stated: inserting a fresh key returns the new
value (not null), and overwriting an existing key returns the new value 99,
not the previous value 42. -/
theorem claim_C3_counterexample :
    hamt_set ctxA 20 hamt_create 7 42 =
        some ({ root := .table 1 [.kv 7 42], size := 1 }, 42) ∧
    hamt_set ctxA 20 { root := .table 1 [.kv 7 42], size := 1 } 7 99 =
        some ({ root := .table 1 [.kv 7 99], size := 1 }, 99) ∧
    (99 : Nat) ≠ 42 :=
  ⟨rfl, rfl, by decide⟩

/-- Witness for C3: the amended theorem at a concrete input. -/
theorem claim_C3_witness :
    hamt_set ctxA 20 hamt_create 7 42 =
        some ({ root := .table 1 [.kv 7 42], size := 1 }, 42) ∧
    (42 : Nat) = 42 :=
  ⟨rfl, claim_C3 ctxA 20 hamt_create 7 42
    { root := .table 1 [.kv 7 42], size := 1 } 42 rfl⟩

/-- Claim C6 (amended): on removal of a present key from a non-root parent
with exactly 2 entries, a leaf sibling replaces the parent (gather) and
GATHERED propagates; an internal sibling shrinks the parent to one entry
with no gather; a GATHERED child of a non-root ancestor with exactly one
remaining child gathers that ancestor in turn; but the root itself never
gathers — removal at the root always returns an internal node. -/
theorem claim_C6 (c : hamt_fns) (fuel : Nat) :
    (∀ index ptr (hash : hash_state) key k v ok ov,
      has_index index (hash_get_index hash) = true →
      ptr[get_pos (hash_get_index hash) index]? = some (.kv k v) →
      c.key_cmp key k = true →
      get_popcount index = 2 →
      ptr[if get_pos (hash_get_index hash) index = 0 then 1 else 0]? =
        some (.kv ok ov) →
      rem_recursive c (fuel + 1) false (.table index ptr) hash key =
        some (.kv ok ov, .REMOVE_GATHERED, some v))
    ∧
    (∀ index ptr (hash : hash_state) key k v si sp,
      has_index index (hash_get_index hash) = true →
      ptr[get_pos (hash_get_index hash) index]? = some (.kv k v) →
      c.key_cmp key k = true →
      get_popcount index = 2 →
      ptr[if get_pos (hash_get_index hash) index = 0 then 1 else 0]? =
        some (.table si sp) →
      ptr.length = 2 →
      ∃ q, rem_recursive c (fuel + 1) false (.table index ptr) hash key =
          some (.table (index &&& ((W - 1) ^^^ (1 <<< hash_get_index hash))) q,
            .REMOVE_SUCCESS, some v) ∧ q.length = 1)
    ∧
    (∀ index ptr (hash : hash_state) key ni np next2 rval gk gv,
      has_index index (hash_get_index hash) = true →
      ptr[get_pos (hash_get_index hash) index]? = some (.table ni np) →
      rem_recursive c fuel false (.table ni np) (hash_next c.key_hash hash) key =
        some (next2, .REMOVE_GATHERED, rval) →
      get_popcount index = 1 →
      next2 = .kv gk gv →
      rem_recursive c (fuel + 1) false (.table index ptr) hash key =
        some (next2, .REMOVE_GATHERED, rval))
    ∧
    (∀ anchor (hash : hash_state) key out,
      rem_recursive c fuel true anchor hash key = some out →
      ∃ i p, out.1 = hamt_node.table i p) := by
  refine ⟨?_, ?_, ?_, ?_⟩
  · intro index ptr hash key k v ok ov hb heq hcmp hn2 hsib
    simp [rem_recursive, hb, heq, hcmp, hn2, hsib]
  · intro index ptr hash key k v si sp hb heq hcmp hn2 hsib hlen
    obtain ⟨hposlt, -⟩ := List.getElem?_eq_some_iff.1 heq
    refine ⟨ptr.take (get_pos (hash_get_index hash) index) ++
      ptr.drop (get_pos (hash_get_index hash) index + 1), ?_, ?_⟩
    · simp [rem_recursive, hb, heq, hcmp, hn2, hsib, table_shrink]
    · rw [length_remove_at hposlt, hlen]
  · intro index ptr hash key ni np next2 rval gk gv hb heq hrec hn1 hkv
    subst hkv
    have hbit : index.testBit (hash_get_index hash) = true := by
      rw [← has_index_eq]
      exact hb
    have hposlt := get_pos_lt (hash_get_index hash) index (hash_get_index_lt _) hbit
    rw [hn1] at hposlt
    have hpos0 : get_pos (hash_get_index hash) index = 0 := by omega
    rw [hpos0] at heq
    obtain ⟨hlen, -⟩ := List.getElem?_eq_some_iff.1 heq
    have hset : (ptr.set 0 (hamt_node.kv gk gv))[0]? = some (.kv gk gv) :=
      List.getElem?_set_self (by simpa using hlen)
    simp [rem_recursive, hb, hpos0, heq, hrec, hn1, hset]
  · intro anchor hash key out h
    exact rem_rec_root_table c fuel anchor hash key out h

/-- Counterexample for C6 as stated: removing key 0 from the two-leaf
subtable below the root gathers the subtable (the parent is replaced by the
sibling leaf and GATHERED reaches the root), but the root — an ancestor
left with exactly one remaining child — does not gather in turn: the result
root is the internal node .table 1 [.kv 1 11], not the leaf .kv 1 11. -/
theorem claim_C6_counterexample :
    hamt_remove ctxC 9 mC2 0 =
        some ({ root := .table 1 [.kv 1 11], size := 1 }, some 10) ∧
    hamt_node.table 1 [.kv 1 11] ≠ hamt_node.kv 1 11 :=
  ⟨rfl, fun h => hamt_node.noConfusion h⟩

/-- Witness for C6: the gather case of the amended theorem at a concrete
two-leaf table. -/
theorem claim_C6_witness :
    rem_recursive ctxC 5 false (.table 3 [.kv 0 10, .kv 1 11])
        { key := 0, hash := 0, depth := 1, shift := 5 } 0 =
      some (.kv 1 11, .REMOVE_GATHERED, some 10) :=
  (claim_C6 ctxC 4).1 3 [.kv 0 10, .kv 1 11]
    { key := 0, hash := 0, depth := 1, shift := 5 } 0 0 10 1 11
    rfl rfl rfl (by decide) rfl

/-- Claim C9: set, remove, pset and premove all preserve the structural
invariant: the root stays an internal node; every internal node's bitmap
popcount equals its child-array length and is at least 1, except the root
of an empty map (bitmap 0, no children). -/
theorem claim_C9 (c : hamt_fns) (fuel : Nat) (trie : hamt) (key value : Nat)
    (hw : wfRoot trie.root) :
    (∀ m r, hamt_set c fuel trie key value = some (m, r) → wfRoot m.root)
    ∧ (∀ m r, hamt_remove c fuel trie key = some (m, r) → wfRoot m.root)
    ∧ (∀ m, hamt_pset c fuel trie key value = some m → wfRoot m.root)
    ∧ (∀ m, hamt_premove c fuel trie key = some m → wfRoot m.root) := by
  refine ⟨?_, ?_, ?_, ?_⟩
  · intro m r h
    simp only [hamt_set] at h
    split at h
    · exact absurd h (by simp)
    · rename_i root2 ret inc hrec
      rw [Option.some.injEq, Prod.mk.injEq] at h
      rw [← h.1]
      exact set_rec_wfRoot c hw hrec
  · intro m r h
    simp only [hamt_remove] at h
    split at h
    · exact absurd h (by simp)
    · rename_i root2 status rval hrec
      split at h
      · rw [Option.some.injEq, Prod.mk.injEq] at h
        rw [← h.1]
        exact rem_rec_wfRoot c hw hrec
      · rw [Option.some.injEq, Prod.mk.injEq] at h
        rw [← h.1]
        exact rem_rec_wfRoot c hw hrec
  · intro m h
    simp only [hamt_pset] at h
    split at h
    · exact absurd h (by simp)
    · rename_i root2 ret inc hrec
      rw [Option.some.injEq] at h
      rw [← h]
      exact set_rec_wfRoot c hw hrec
  · intro m h
    simp only [hamt_premove] at h
    split at h
    · exact absurd h (by simp)
    · rename_i root2 status rval hrec
      split at h
      · rw [Option.some.injEq] at h
        rw [← h]
        exact rem_rec_wfRoot c hw hrec
      · rw [Option.some.injEq] at h
        rw [← h]
        exact rem_rec_wfRoot c hw hrec

/-- Witness for C9: the empty map is well-formed at the root, and so is the
map produced by inserting one key into it. -/
theorem claim_C9_witness :
    wfRoot hamt_create.root ∧
    wfRoot (hamt.mk (.table 1 [.kv 5 7]) 1).root := by
  constructor
  · exact Or.inl ⟨rfl, rfl⟩
  · exact (claim_C9 ctxA 20 hamt_create 5 7 (Or.inl ⟨rfl, rfl⟩)).1
      ⟨.table 1 [.kv 5 7], 1⟩ 7 rfl

/-- Claim C1 (code bug): with the legal deterministic hash hashA, after
set(0,10); set(1,11); set(2,12) — key 0 set once and never removed —
hamt_get finds keys 1 and 2 but returns null for key 0. The split of the
keys 0 and 2 at depth 6 placed the existing leaf (0,10) using a hash
rebuilt with generation depth/5 = 1 (hamt.c line 525), while lookup
rehashes with generation 6 (hash_next uses the depth), so the leaf is
unreachable. -/
theorem claim_C1 :
    hamt_set ctxA 20 hamt_create 0 10 = some (mA1, 10) ∧
    hamt_set ctxA 20 mA1 1 11 = some (mA2, 11) ∧
    hamt_set ctxA 20 mA2 2 12 = some (mA3, 12) ∧
    hamt_get ctxA 20 mA3 1 = some (some 11) ∧
    hamt_get ctxA 20 mA3 2 = some (some 12) ∧
    hamt_get ctxA 20 mA3 0 = some none :=
  ⟨rfl, rfl, rfl, rfl, rfl, rfl⟩

/-- Claim C4 (code bug): in mA3 the key 0 is present with stored value 10
(the leaf .kv 0 10 is in the tree and key 0 was never removed), but
hamt_remove(mA3, 0) returns null instead of the stored value — and still
decrements the size from 3 to 2 while leaving the tree unchanged, because
rem_recursive converts the deep REMOVE_NOTFOUND into REMOVE_SUCCESS on the
way up (hamt.c line 786). -/
theorem claim_C4 :
    mA3.size = 3 ∧
    mA3.root = chain6 (.table 3 [.table 3 [.kv 2 12, .kv 0 10], .kv 1 11]) ∧
    hamt_remove ctxA 20 mA3 0 = some ({ root := mA3.root, size := 2 }, none) :=
  ⟨rfl, rfl, rfl⟩

/-- Claim C7 (code bug): with hashB, after set(0,10); set(1,11); set(2,12)
key 0 is present (the leaf .kv 0 10 is in mB3 and key 0 was never
removed), yet set(0,13) does not overwrite: it takes the NOTFOUND path,
inserts a second leaf for key 0 and increments the size from 3 to 4. -/
theorem claim_C7 :
    hamt_set ctxB 20 hamt_create 0 10 = some (mB1, 10) ∧
    hamt_set ctxB 20 mB1 1 11 = some (mB2, 11) ∧
    hamt_set ctxB 20 mB2 2 12 = some (mB3, 12) ∧
    hamt_set ctxB 20 mB3 0 13 = some (mB4, 13) ∧
    mB3.size = 3 ∧ mB4.size = 4 ∧
    mB4.root = chain6 (.table 3 [.table 7 [.kv 2 12, .kv 0 10, .kv 0 13], .kv 1 11]) :=
  ⟨rfl, rfl, rfl, rfl, rfl, rfl, rfl⟩

/-- Claim C2 (code bug): in mB5 the key 0 is present with most recently set
value 13 (get returns it), but after M2 = premove(mB5, 0) the new map still
answers get(M2, 0) = 10 — the stale duplicate leaf left behind by the
generation slip is gathered onto key 0's search path — instead of null as
the claim requires. -/
theorem claim_C2 :
    hamt_set ctxB 20 hamt_create 0 10 = some (mB1, 10) ∧
    hamt_set ctxB 20 mB1 1 11 = some (mB2, 11) ∧
    hamt_set ctxB 20 mB2 2 12 = some (mB3, 12) ∧
    hamt_set ctxB 20 mB3 0 13 = some (mB4, 13) ∧
    hamt_remove ctxB 20 mB4 2 = some (mB5, some 12) ∧
    hamt_get ctxB 20 mB5 0 = some (some 13) ∧
    hamt_premove ctxB 20 mB5 0 = some mB6 ∧
    hamt_get ctxB 20 mB6 0 = some (some 10) ∧
    (some (some 10) : Option (Option Nat)) ≠ some none :=
  ⟨rfl, rfl, rfl, rfl, rfl, rfl, rfl, rfl, by decide⟩

/-- Claim C10 (code bug): key 2 is absent from mD2 (get returns null) and
its search descends one level below the root before missing; premove then
returns a non-null map with the same mappings — but with size decremented
from 2 to 1, because the ancestor frame of rem_recursive rewrites the
child's REMOVE_NOTFOUND into REMOVE_SUCCESS (hamt.c line 786) and
hamt_premove decrements the size on success. hamt_remove on the same miss
returns null but also decrements the size. -/
theorem claim_C10 :
    hamt_set ctxD 9 hamt_create 0 10 =
        some ({ root := .table 1 [.kv 0 10], size := 1 }, 10) ∧
    hamt_set ctxD 9 { root := .table 1 [.kv 0 10], size := 1 } 1 11 =
        some (mD2, 11) ∧
    hamt_get ctxD 9 mD2 2 = some none ∧
    hamt_premove ctxD 9 mD2 2 = some { root := mD2.root, size := 1 } ∧
    hamt_remove ctxD 9 mD2 2 = some ({ root := mD2.root, size := 1 }, none) ∧
    mD2.size = 2 ∧ (1 : Nat) ≠ 2 :=
  ⟨rfl, rfl, rfl, rfl, rfl, rfl, by decide⟩

end Hamt
